import Mathlib

/-!
Verification development for the `build-your-own-curl` command-line HTTP
client (`cmd/root.go`).

The program resolves a URL argument into a request target (host, port,
path) using the Go standard library URL parser, dials `host:port` over
TCP, writes a single HTTP/1.0 GET request, performs one read into a
1024-byte buffer, prints the result, and closes the connection on every
exit path via a deferred close.

Strings are modelled as `List Char`, each `Char` standing for one byte of
the Go string (all inputs of interest are ASCII; percent-decoding may
produce code points at or above 0x80, which stand for the corresponding
decoded bytes).  The relevant fragment of the Go standard library package
`net/url` (the functions reachable from `url.Parse`, `URL.Hostname` and
`URL.Port` on the path taken by `cmd/root.go`) is embedded function by
function below.
-/

namespace GoURL

/-- Character classes used by the Go parser, written over `Char.toNat`
byte values exactly as the Go source compares bytes. -/
def isAlphaGo (c : Char) : Bool :=
  (97 ≤ c.toNat && c.toNat ≤ 122) || (65 ≤ c.toNat && c.toNat ≤ 90)

/-- Decimal digit, as tested by `net/url` (`'0' <= b && b <= '9'`). -/
def isDigitGo (c : Char) : Bool :=
  48 ≤ c.toNat && c.toNat ≤ 57

def isAlphaNumGo (c : Char) : Bool :=
  isAlphaGo c || isDigitGo c

/-- `net/url.ishex`. -/
def ishex (c : Char) : Bool :=
  (48 ≤ c.toNat && c.toNat ≤ 57) ||
  (97 ≤ c.toNat && c.toNat ≤ 102) ||
  (65 ≤ c.toNat && c.toNat ≤ 70)

/-- `net/url.unhex`. -/
def unhex (c : Char) : Nat :=
  if 48 ≤ c.toNat && c.toNat ≤ 57 then c.toNat - 48
  else if 97 ≤ c.toNat && c.toNat ≤ 102 then c.toNat - 97 + 10
  else if 65 ≤ c.toNat && c.toNat ≤ 70 then c.toNat - 65 + 10
  else 0

/-- `net/url.stringContainsCTLByte`: byte below 0x20 or equal to 0x7f. -/
def isCTL (c : Char) : Bool :=
  c.toNat < 32 || c.toNat == 127

def containsCTLByte (s : List Char) : Bool :=
  s.any isCTL

/-- The characters that never need escaping in the host component
(`net/url.shouldEscape` with mode `encodeHost`): ASCII alphanumerics, the
sub-delims and host extras listed in the Go source, and the unreserved
marks.  `shouldEscapeHost c = true` means the raw byte is forbidden in a
host. -/
def hostExtraChars : List Char :=
  ['!', '$', '&', Char.ofNat 39, '(', ')', '*', '+', ',', ';', '=',
   ':', '[', ']', '<', '>', Char.ofNat 34]

def shouldEscapeHost (c : Char) : Bool :=
  if isAlphaNumGo c then false
  else if hostExtraChars.contains c then false
  else if ['-', '_', '.', '~'].contains c then false
  else true

/-- Error values produced by the embedded parser.  These correspond to
the distinct error returns inside `net/url`; the payloads carry the same
substrings the Go errors interpolate.  (Go additionally wraps parse
errors in `url.Error` together with the input string; the wrapper is
dropped because the program only panics on the error.) -/
inductive ParseErr where
  | invalidControlCharacter
  | missingProtocolScheme
  | firstSegmentColon
  | invalidUserinfo
  | missingRBracket
  | invalidPortAfterHost (colonPort : List Char)
  | escapeError (s : List Char)
  | invalidHostError (s : List Char)
  deriving DecidableEq, Repr

/-- Escaping modes relevant to `url.Parse`: `encodeHost`, `encodeZone`,
`encodePath` (used by `URL.setPath`), `encodeUserPassword` and
`encodeFragment`. -/
inductive Enc where
  | encHost
  | encZone
  | encPath
  | encUserPassword
  | encFragment
  deriving DecidableEq, Repr

/-- `net/url.unescape`.  The Go function first validates the string and
then decodes it; this embedding fuses the two passes into one structural
recursion with the same observable result: the same error on the same
first offending position, otherwise the decoded string.

Mode-specific checks mirrored from the source:
* in `encodeHost` mode a `%xx` escape whose high nibble is below 8 is
  rejected unless it is exactly `%25`;
* in `encodeZone` mode an escape other than `%25` must decode to a space
  or to a byte allowed raw in a host;
* in `encodeHost`/`encodeZone` modes a raw byte below 0x80 that would
  need escaping in a host is rejected.
A raw `+` is kept verbatim (the query mode, where `+` decodes to a
space, is never used by `url.Parse` itself). -/
def unescapeGo (mode : Enc) : List Char → Except ParseErr (List Char)
  | [] => .ok []
  | c :: rest =>
    if c = '%' then
      match rest with
      | x :: y :: rest2 =>
        if ishex x && ishex y then
          if mode = .encHost && unhex x < 8 && !(x = '2' && y = '5') then
            .error (.escapeError [c, x, y])
          else if mode = .encZone && !(x = '2' && y = '5') &&
              unhex x * 16 + unhex y ≠ 32 &&
              shouldEscapeHost (Char.ofNat (unhex x * 16 + unhex y)) then
            .error (.invalidHostError [c, x, y])
          else
            match unescapeGo mode rest2 with
            | .error e => .error e
            | .ok t => .ok (Char.ofNat (unhex x * 16 + unhex y) :: t)
        else
          .error (.escapeError (List.take 3 (c :: rest)))
      | _ => .error (.escapeError (List.take 3 (c :: rest)))
    else if (mode = .encHost || mode = .encZone) && c.toNat < 128 &&
        shouldEscapeHost c then
      .error (.invalidHostError [c])
    else
      match unescapeGo mode rest with
      | .error e => .error e
      | .ok t => .ok (c :: t)

/-- `strings.LastIndex` for a single character, as an option. -/
def lastIndexOf? : List Char → Char → Option Nat
  | [], _ => none
  | x :: xs, c =>
    match lastIndexOf? xs c with
    | some i => some (i + 1)
    | none => if x = c then some 0 else none

/-- `strings.Index` for a substring, as an option (the pattern used by
the parser, `"%25"`, is never empty). -/
def indexOfSub? (pat : List Char) : List Char → Option Nat
  | [] => if pat.isPrefixOf ([] : List Char) then some 0 else none
  | c :: tl =>
    if pat.isPrefixOf (c :: tl) then some 0
    else (indexOfSub? pat tl).map (· + 1)

/-- `net/url.validOptionalPort`: empty, or a colon followed by decimal
digits only. -/
def validOptionalPort : List Char → Bool
  | [] => true
  | c :: rest => c = ':' && rest.all isDigitGo

/-- `net/url.parseHost`. -/
def parseHost (host : List Char) : Except ParseErr (List Char) :=
  if ['['].isPrefixOf host then
    match lastIndexOf? host ']' with
    | none => .error .missingRBracket
    | some i =>
      let colonPort := host.drop (i + 1)
      if validOptionalPort colonPort = false then
        .error (.invalidPortAfterHost colonPort)
      else
        match indexOfSub? ['%', '2', '5'] (host.take i) with
        | some zone =>
          match unescapeGo .encHost (host.take zone) with
          | .error e => .error e
          | .ok host1 =>
            match unescapeGo .encZone ((host.take i).drop zone) with
            | .error e => .error e
            | .ok host2 =>
              match unescapeGo .encHost (host.drop i) with
              | .error e => .error e
              | .ok host3 => .ok (host1 ++ host2 ++ host3)
        | none =>
          match unescapeGo .encHost host with
          | .error e => .error e
          | .ok h => .ok h
  else
    match lastIndexOf? host ':' with
    | some i =>
      if validOptionalPort (host.drop i) = false then
        .error (.invalidPortAfterHost (host.drop i))
      else
        match unescapeGo .encHost host with
        | .error e => .error e
        | .ok h => .ok h
    | none =>
      match unescapeGo .encHost host with
      | .error e => .error e
      | .ok h => .ok h

/-- `net/url.validUserinfo`. -/
def isUserinfoChar (c : Char) : Bool :=
  isAlphaNumGo c ||
  ['-', '.', '_', ':', '~', '!', '$', '&', Char.ofNat 39, '(', ')', '*',
   '+', ',', ';', '=', '%', '@'].contains c

def validUserinfo (s : List Char) : Bool :=
  s.all isUserinfoChar

/-- `net/url.parseAuthority`, returning the parsed host.  The userinfo
value itself is unused by the program, but its validation (and the
escape validation Go performs while building the `Userinfo` value) can
fail, so those checks are kept. -/
def parseAuthority (authority : List Char) : Except ParseErr (List Char) :=
  match lastIndexOf? authority '@' with
  | none => parseHost authority
  | some i =>
    match parseHost (authority.drop (i + 1)) with
    | .error e => .error e
    | .ok host =>
      let userinfo := authority.take i
      if validUserinfo userinfo = false then .error .invalidUserinfo
      else if userinfo.contains ':' = false then
        match unescapeGo .encUserPassword userinfo with
        | .error e => .error e
        | .ok _ => .ok host
      else
        match unescapeGo .encUserPassword (userinfo.takeWhile (· ≠ ':')) with
        | .error e => .error e
        | .ok _ =>
          match unescapeGo .encUserPassword
              ((userinfo.dropWhile (· ≠ ':')).tail) with
          | .error e => .error e
          | .ok _ => .ok host

/-- Characters allowed after the first position of a scheme. -/
def isSchemeChar (c : Char) : Bool :=
  isAlphaGo c || isDigitGo c || c = '+' || c = '-' || c = '.'

/-- Scheme-tail scanner: the `i > 0` iterations of the loop inside
`net/url.getScheme`.  Returns the scheme characters scanned and the text
after the colon, or `none` when no colon terminates a valid scheme. -/
def schemeTail : List Char → Option (List Char × List Char)
  | [] => none
  | c :: cs =>
    if c = ':' then some ([], cs)
    else if isSchemeChar c then
      (schemeTail cs).map fun sr => (c :: sr.1, sr.2)
    else none

/-- `net/url.getScheme`: a scheme must start with an ASCII letter; a
colon in first position is an error; any other failure to find a scheme
returns the whole string unchanged. -/
def getScheme (rawURL : List Char) : Except ParseErr (List Char × List Char) :=
  match rawURL with
  | [] => .ok ([], rawURL)
  | c :: _ =>
    if c = ':' then .error .missingProtocolScheme
    else if isAlphaGo c then
      match schemeTail rawURL with
      | some sr => .ok sr
      | none => .ok ([], rawURL)
    else .ok ([], rawURL)

/-- The fields of `url.URL` that the parse path can set.  `Opaque` is
named `opq`; `User` is omitted (only its validation matters, handled in
`parseAuthority`); `RawPath` and `RawFragment` are omitted because no
reachable code reads them. -/
structure URL where
  scheme : List Char := []
  opq : List Char := []
  host : List Char := []
  path : List Char := []
  rawQuery : List Char := []
  forceQuery : Bool := false
  omitHost : Bool := false
  fragment : List Char := []
  deriving DecidableEq, Repr

/-- `strings.Cut` / the internal `split(s, sep, true)` helper: text
before the first occurrence of `sep`, and the text after it (empty when
`sep` does not occur). -/
def splitCut : List Char → Char → List Char × List Char
  | [], _ => ([], [])
  | c :: cs, sep =>
    if c = sep then ([], cs)
    else
      let p := splitCut cs sep
      (c :: p.1, p.2)

/-- `strings.HasSuffix` specialised to lists. -/
def hasSuffix (s suffix : List Char) : Bool :=
  suffix.isSuffixOf s

/-- `strings.TrimSuffix` specialised to lists. -/
def trimSuffix (s suffix : List Char) : List Char :=
  if suffix.isSuffixOf s then s.take (s.length - suffix.length) else s

/-- ASCII lowering; `strings.ToLower` restricted to the ASCII strings
`getScheme` can produce. -/
def toLowerAscii (s : List Char) : List Char :=
  s.map fun c => if 65 ≤ c.toNat && c.toNat ≤ 90 then Char.ofNat (c.toNat + 32) else c

/-- The predicate for `strings.Cut(rest, "/")` and
`strings.Index(authority, "/")`: scan up to the first slash. -/
def notSlash (c : Char) : Bool := c ≠ '/'

/-- The part of `net/url.parse` that runs after the query has been split
off: opaque/rootless handling, the relative-URL colon check, authority
extraction, and `setPath`.  `scheme` is consulted only through
`scheme.isEmpty`, mirroring the `url.Scheme != ""` tests (`viaRequest`
is `false` on the `url.Parse` path). -/
def parseAfterQuery (scheme rest rawQuery : List Char) (fq : Bool) :
    Except ParseErr URL :=
  if !(['/'].isPrefixOf rest) && !scheme.isEmpty then
    .ok { scheme := scheme, opq := rest, rawQuery := rawQuery, forceQuery := fq }
  else if !(['/'].isPrefixOf rest) && (rest.takeWhile notSlash).contains ':' then
    .error .firstSegmentColon
  else if (!scheme.isEmpty || !(['/', '/', '/'].isPrefixOf rest)) &&
      ['/', '/'].isPrefixOf rest then
    let authority := (rest.drop 2).takeWhile notSlash
    let rest2 := (rest.drop 2).dropWhile notSlash
    match parseAuthority authority with
    | .error e => .error e
    | .ok host =>
      match unescapeGo .encPath rest2 with
      | .error e => .error e
      | .ok p =>
        .ok { scheme := scheme, host := host, path := p,
              rawQuery := rawQuery, forceQuery := fq }
  else
    match unescapeGo .encPath rest with
    | .error e => .error e
    | .ok p =>
      .ok { scheme := scheme, path := p, rawQuery := rawQuery,
            forceQuery := fq,
            omitHost := !scheme.isEmpty && ['/'].isPrefixOf rest }

/-- The query-splitting step of `net/url.parse`: a single trailing `?`
with no other `?` sets `ForceQuery`; otherwise the string is cut at the
first `?`. -/
def parseAfterScheme (scheme rest0 : List Char) : Except ParseErr URL :=
  if hasSuffix rest0 ['?'] && !(trimSuffix rest0 ['?']).contains '?' then
    parseAfterQuery scheme (trimSuffix rest0 ['?']) [] true
  else
    parseAfterQuery scheme (splitCut rest0 '?').1 (splitCut rest0 '?').2 false

/-- `net/url.parse` with `viaRequest = false` (the `url.Parse` path):
control-character check, the `*` special case, scheme extraction and
lowering, then the rest of the pipeline. -/
def parseGo (rawURL : List Char) : Except ParseErr URL :=
  if containsCTLByte rawURL then .error .invalidControlCharacter
  else if rawURL = ['*'] then .ok { path := ['*'] }
  else
    match getScheme rawURL with
    | .error e => .error e
    | .ok sr => parseAfterScheme (toLowerAscii sr.1) sr.2

/-- `net/url.Parse`: split off the fragment, parse the rest, then
validate and store the fragment. -/
def urlParse (rawURL : List Char) : Except ParseErr URL :=
  let p := splitCut rawURL '#'
  match parseGo p.1 with
  | .error e => .error e
  | .ok url =>
    if p.2 = [] then .ok url
    else
      match unescapeGo .encFragment p.2 with
      | .error e => .error e
      | .ok f => .ok { url with fragment := f }

/-- Bracket stripping inside `net/url.splitHostPort`. -/
def stripBrackets (host : List Char) : List Char :=
  if ['['].isPrefixOf host && hasSuffix host [']'] then
    (host.drop 1).dropLast
  else host

/-- `net/url.splitHostPort`: split the stored host at its last colon
when the tail is a valid optional port, then strip brackets. -/
def splitHostPort (hostPort : List Char) : List Char × List Char :=
  match lastIndexOf? hostPort ':' with
  | some colon =>
    if validOptionalPort (hostPort.drop colon) then
      (stripBrackets (hostPort.take colon), hostPort.drop (colon + 1))
    else (stripBrackets hostPort, [])
  | none => (stripBrackets hostPort, [])

/-- `url.URL.Hostname`. -/
def hostnameOf (u : URL) : List Char :=
  (splitHostPort u.host).1

/-- `url.URL.Port`. -/
def portOf (u : URL) : List Char :=
  (splitHostPort u.host).2

end GoURL

namespace Curl

open GoURL

/-- The `RequestTarget` of the spec: the `(host, port, path)` triple the
`Run` function extracts from the parsed URL. -/
structure RequestTarget where
  host : List Char
  port : List Char
  path : List Char
  deriving DecidableEq, Repr

/-- The URL Resolver of `cmd/root.go`: `url.Parse`, then
`host := u.Hostname()`, `port := u.Port()`, `path := u.Path`, with
`port = "80"` substituted when the URL carries no port. -/
def resolveTarget (arg : List Char) : Except ParseErr RequestTarget :=
  match urlParse arg with
  | .error e => .error e
  | .ok u =>
    let port := portOf u
    .ok { host := hostnameOf u
          port := if port = [] then "80".data else port
          path := u.path }

/-- Interpreter for the fragment of `fmt.Fprintf` format strings the
program uses: literal bytes are copied and each `%s` verb consumes one
argument; a `%s` with no argument left renders Go's
`%!s(MISSING)` diagnostic. -/
def fprintfFmt : List Char → List (List Char) → List Char
  | [], _ => []
  | '%' :: 's' :: rest, a :: args => a ++ fprintfFmt rest args
  | '%' :: 's' :: rest, [] => "%!s(MISSING)".data ++ fprintfFmt rest []
  | c :: rest, args => c :: fprintfFmt rest args

/-- What the stub server at the other end of the connection does:
deliver a byte sequence then close, or fail the read outright. -/
inductive ServerResp where
  | deliver (data : List Char)
  | failRead
  deriving DecidableEq, Repr

/-- Read-side errors: `io.EOF` for a clean end of stream, `other` for
any other socket failure. -/
inductive ReadErr where
  | eof
  | other
  deriving DecidableEq, Repr

/-- One `conn.Read(buf)` with `len(buf) = 1024` against the stub server:
an immediately closed connection yields `(0, io.EOF)`; otherwise the
read returns as much of the pending data as fits the buffer (maximal
read; Go permits shorter reads, the deterministic model always delivers
the most the contract allows). -/
def connRead (resp : ServerResp) : Except ReadErr (List Char) :=
  match resp with
  | .failRead => .error .other
  | .deliver [] => .error .eof
  | .deliver d => .ok (d.take 1024)

/-- Environment of one invocation: whether `net.Dial` succeeds, and the
server behaviour on the opened connection. -/
structure NetBehavior where
  dialOk : Bool
  resp : ServerResp
  deriving DecidableEq, Repr

/-- How the process terminates: normal return from `Run`, or a panic
carrying the error that triggered it. -/
inductive RunErr where
  | malformedURL (e : ParseErr)
  | connectionError
  | readError (e : ReadErr)
  deriving DecidableEq, Repr

inductive RunOutcome where
  | success
  | panicked (e : RunErr)
  deriving DecidableEq, Repr

/-- Chronological observable events of one invocation.  The builtin
`println` writes to standard error; `fmt.Println` writes to standard
output. -/
inductive Event where
  | eStderr (line : List Char)
  | eDial (addr : List Char) (ok : Bool)
  | eWrite (data : List Char)
  | eRead (result : Except ReadErr (List Char))
  | eStdout (data : List Char)
  | eClose
  deriving Repr

/-- The request bytes: `fmt.Fprintf(conn, "GET %s HTTP/1.0\r\nHost: %s\r\n\r\n", path, host)`. -/
def requestBytes (t : RequestTarget) : List Char :=
  fprintfFmt "GET %s HTTP/1.0\r\nHost: %s\r\n\r\n".data [t.path, t.host]

/-- The Raw HTTP Exchanger: dial `host:port`; on success write the
single request, read once, and print.  The deferred `conn.Close` runs on
the normal path and while unwinding the read panic, so every path after
a successful dial emits exactly one `eClose`. -/
def exchangeEvents (t : RequestTarget) (net : NetBehavior) :
    List Event × RunOutcome :=
  let addr := t.host ++ ':' :: t.port
  if net.dialOk = false then
    ([.eDial addr false], .panicked .connectionError)
  else
    match connRead net.resp with
    | .error e =>
      ([.eDial addr true, .eWrite (requestBytes t), .eRead (.error e), .eClose],
       .panicked (.readError e))
    | .ok data =>
      ([.eDial addr true, .eWrite (requestBytes t), .eRead (.ok data),
        .eStdout (data ++ ['\n']), .eClose],
       .success)

/-- The whole `Run` function: parse (panicking before any network
activity on failure), print the three diagnostic lines to standard
error, then run the exchange. -/
def runEvents (arg : List Char) (net : NetBehavior) :
    List Event × RunOutcome :=
  match resolveTarget arg with
  | .error e => ([], .panicked (.malformedURL e))
  | .ok t =>
    let hdr := [Event.eStderr ("Host: ".data ++ t.host),
                Event.eStderr ("Port: ".data ++ t.port),
                Event.eStderr ("Path: ".data ++ t.path)]
    let p := exchangeEvents t net
    (hdr ++ p.1, p.2)

/-- Bytes written on the TCP connection, in order. -/
def writtenOf (evs : List Event) : List (List Char) :=
  evs.filterMap fun e => match e with
    | .eWrite d => some d
    | _ => none

/-- Dial attempts (address and result), in order. -/
def dialsOf (evs : List Event) : List (List Char × Bool) :=
  evs.filterMap fun e => match e with
    | .eDial a ok => some (a, ok)
    | _ => none

/-- Number of `conn.Close` calls. -/
def closeCount (evs : List Event) : Nat :=
  evs.countP fun e => match e with
    | .eClose => true
    | _ => false

/-- Chunks written to standard output, in order. -/
def stdoutOf (evs : List Event) : List (List Char) :=
  evs.filterMap fun e => match e with
    | .eStdout d => some d
    | _ => none

/-- The `RawResponse` delivered by the read step, when it succeeded. -/
def responseOf (evs : List Event) : Option (List Char) :=
  evs.filterMap (fun e => match e with
    | .eRead (.ok d) => some d
    | _ => none) |>.head?

/-- Process exit status: 0 on success, 2 for a Go panic. -/
def exitCode (out : RunOutcome) : Nat :=
  match out with
  | .success => 0
  | .panicked _ => 2

end Curl

namespace GoURL

/-!
Claim-side definitions: the authority component of an input URL and its
explicit port, extracted syntactically from the raw input by replaying
the splits the parser performs.  These are the spec notions the claims
compare the parser against (glossary: the authority component is the
`host[:port]` portion of a URL). -/

/-- The text after the last `@` of an authority: its `host[:port]`
portion. -/
def afterLastAt (authority : List Char) : List Char :=
  match lastIndexOf? authority '@' with
  | none => authority
  | some i => authority.drop (i + 1)

/-- The authority component the parser would carve out of the text
following the scheme and preceding the query, or `none` when the URL has
no authority. -/
def rawAuthorityAfterQuery (scheme rest : List Char) : Option (List Char) :=
  if !(['/'].isPrefixOf rest) && !scheme.isEmpty then none
  else if !(['/'].isPrefixOf rest) && (rest.takeWhile notSlash).contains ':' then none
  else if (!scheme.isEmpty || !(['/', '/', '/'].isPrefixOf rest)) &&
      ['/', '/'].isPrefixOf rest then
    some ((rest.drop 2).takeWhile notSlash)
  else none

def rawAuthorityAfterScheme (scheme rest0 : List Char) : Option (List Char) :=
  if hasSuffix rest0 ['?'] && !(trimSuffix rest0 ['?']).contains '?' then
    rawAuthorityAfterQuery scheme (trimSuffix rest0 ['?'])
  else
    rawAuthorityAfterQuery scheme (splitCut rest0 '?').1

def rawAuthorityOfCore (rawURL : List Char) : Option (List Char) :=
  if containsCTLByte rawURL then none
  else if rawURL = ['*'] then none
  else
    match getScheme rawURL with
    | .error _ => none
    | .ok sr => rawAuthorityAfterScheme (toLowerAscii sr.1) sr.2

/-- The `host[:port]` portion of the authority component of the input,
when the input has an authority. -/
def authorityHostOf (rawURL : List Char) : Option (List Char) :=
  (rawAuthorityOfCore (splitCut rawURL '#').1).map afterLastAt

/-- The explicit port written in the `host[:port]` text: the digits
after the last colon (after the closing bracket for an IP literal).  An
absent or empty port counts as omitted. -/
def explicitPortOf (hostRaw : List Char) : Option (List Char) :=
  if ['['].isPrefixOf hostRaw then
    match lastIndexOf? hostRaw ']' with
    | none => none
    | some i =>
      match hostRaw.drop (i + 1) with
      | ':' :: ds => if !ds.isEmpty && ds.all isDigitGo then some ds else none
      | _ => none
  else
    match lastIndexOf? hostRaw ':' with
    | none => none
    | some i =>
      let ds := hostRaw.drop (i + 1)
      if !ds.isEmpty && ds.all isDigitGo then some ds else none

/-- The port the spec assigns to an input URL: the explicit port of its
authority when one is present, the fixed default `"80"` otherwise. -/
def portSpec (rawURL : List Char) : List Char :=
  match authorityHostOf rawURL with
  | some hraw => (explicitPortOf hraw).getD "80".data
  | none => "80".data

/-- A syntactically valid scheme name: an ASCII letter followed by
letters, digits, `+`, `-` or `.`. -/
def isValidSchemeName : List Char → Bool
  | [] => false
  | c :: cs => isAlphaGo c && cs.all isSchemeChar

/-- Forget the query-related fields of a parsed URL (they are unread by
the request target computation). -/
def eraseQuery (u : URL) : URL :=
  { u with rawQuery := [], forceQuery := false }

/-- Forget the scheme field of a parsed URL (it is unread by the request
target computation). -/
def eraseScheme (u : URL) : URL :=
  { u with scheme := [] }

end GoURL



namespace Curl

/-- The interpolated request line and headers, as one append chain. -/
theorem requestBytes_eq (t : RequestTarget) :
    requestBytes t =
      "GET ".data ++ t.path ++ " HTTP/1.0\r\nHost: ".data ++ t.host ++
        "\r\n\r\n".data := by
  simp only [List.append_assoc]
  rfl

end Curl

open GoURL Curl

/-- C1: with the connection open, the bytes transmitted on it are
exactly the single chunk
`"GET " ++ path ++ " HTTP/1.0\r\nHost: " ++ host ++ "\r\n\r\n"`; nothing
else is ever written on the connection. -/
theorem c1_wire_format (t : RequestTarget) (net : NetBehavior)
    (h : net.dialOk = true) :
    writtenOf (exchangeEvents t net).1 =
      ["GET ".data ++ t.path ++ " HTTP/1.0\r\nHost: ".data ++ t.host ++
        "\r\n\r\n".data] := by
  unfold exchangeEvents
  rw [h]
  cases hr : connRead net.resp <;>
    simp [writtenOf, List.filterMap, requestBytes_eq]

/-- Witness for C1 at a concrete target and server. -/
theorem c1_wire_format_witness :
    writtenOf (exchangeEvents ⟨"example.com".data, "80".data, "/get".data⟩
        ⟨true, .deliver "hi".data⟩).1 =
      ["GET ".data ++ "/get".data ++ " HTTP/1.0\r\nHost: ".data ++
        "example.com".data ++ "\r\n\r\n".data] :=
  c1_wire_format ⟨"example.com".data, "80".data, "/get".data⟩
    ⟨true, .deliver "hi".data⟩ rfl

/-- C5: the Raw HTTP Exchanger closes the connection exactly once on
every exit path on which the dial succeeded (success or read panic: the
deferred close also runs while panicking), and there is no connection to
close when the dial failed. -/
theorem c5_close_exactly_once (t : RequestTarget) (net : NetBehavior) :
    closeCount (exchangeEvents t net).1 = if net.dialOk then 1 else 0 := by
  unfold exchangeEvents
  cases hd : net.dialOk
  · simp [closeCount]
  · cases hr : connRead net.resp <;> simp [closeCount]

/-- C6: when the server delivers strictly more than the 1024-byte buffer
capacity, the exchange succeeds and the raw response is exactly the
first 1024 bytes (the remainder is dropped without an error); and every
raw response ever produced has length at most 1024. -/
theorem c6_truncation (t : RequestTarget) (d : List Char)
    (h : 1024 < d.length) :
    (exchangeEvents t ⟨true, .deliver d⟩).2 = .success ∧
    responseOf (exchangeEvents t ⟨true, .deliver d⟩).1 = some (d.take 1024) ∧
    (d.take 1024).length = 1024 ∧
    ∀ (net : NetBehavior) (r : List Char),
      responseOf (exchangeEvents t net).1 = some r → r.length ≤ 1024 := by
  have hd : d ≠ [] := by
    intro he
    rw [he] at h
    simp at h
  have hread : connRead (.deliver d) = .ok (d.take 1024) := by
    unfold connRead
    cases d
    · exact absurd rfl hd
    · rfl
  refine ⟨?_, ?_, ?_, ?_⟩
  · unfold exchangeEvents
    rw [hread]
    rfl
  · unfold exchangeEvents
    rw [hread]
    simp [responseOf]
  · rw [List.length_take]
    omega
  · intro net r hr
    unfold exchangeEvents at hr
    cases hnd : net.dialOk
    · rw [hnd] at hr
      simp [responseOf] at hr
    · rw [hnd] at hr
      cases hrsp : net.resp with
      | failRead =>
        rw [hrsp] at hr
        simp [connRead, responseOf] at hr
      | deliver d2 =>
        rw [hrsp] at hr
        cases d2 with
        | nil => simp [connRead, responseOf] at hr
        | cons a tl =>
          simp [connRead, responseOf] at hr
          rw [← hr, List.length_cons, List.length_take]
          omega

/-- Witness for C6 on a 1025-byte response. -/
theorem c6_truncation_witness :
    (exchangeEvents ⟨"example.com".data, "80".data, "/get".data⟩
        ⟨true, .deliver (List.replicate 1025 'a')⟩).2 = .success ∧
    responseOf (exchangeEvents ⟨"example.com".data, "80".data, "/get".data⟩
        ⟨true, .deliver (List.replicate 1025 'a')⟩).1 =
      some ((List.replicate 1025 'a').take 1024) ∧
    ((List.replicate 1025 'a').take 1024).length = 1024 ∧
    ∀ (net : NetBehavior) (r : List Char),
      responseOf (exchangeEvents ⟨"example.com".data, "80".data, "/get".data⟩
          net).1 = some r → r.length ≤ 1024 :=
  c6_truncation ⟨"example.com".data, "80".data, "/get".data⟩
    (List.replicate 1025 'a') (by rw [List.length_replicate]; omega)

/-- C4 counterexample: when the peer closes the connection immediately
(zero bytes delivered), the read returns `io.EOF`, and the code panics
on it — the exchange does NOT succeed, contradicting the claim that a
zero-byte read is not an error. -/
theorem c4_counterexample :
    (exchangeEvents ⟨"example.com".data, "80".data, "/get".data⟩
        ⟨true, .deliver []⟩).2 = .panicked (.readError .eof) ∧
    (exchangeEvents ⟨"example.com".data, "80".data, "/get".data⟩
        ⟨true, .deliver []⟩).2 ≠ .success := by
  refine ⟨rfl, ?_⟩
  intro h
  simp [exchangeEvents, connRead] at h

/-- C4 amended: a short read of at least one byte is not an error and
yields exactly the delivered bytes (up to capacity); but the code checks
`err != nil` without exempting `io.EOF`, so a zero-byte read (peer
closed immediately) panics with the end-of-stream error, as does any
other read failure. -/
theorem c4_read_semantics (t : RequestTarget) (net : NetBehavior)
    (hdial : net.dialOk = true) :
    (∀ d, net.resp = .deliver d → d ≠ [] →
      (exchangeEvents t net).2 = .success ∧
      responseOf (exchangeEvents t net).1 = some (d.take 1024)) ∧
    (net.resp = .deliver [] →
      (exchangeEvents t net).2 = .panicked (.readError .eof)) ∧
    (net.resp = .failRead →
      (exchangeEvents t net).2 = .panicked (.readError .other)) := by
  refine ⟨?_, ?_, ?_⟩
  · intro d hresp hne
    have hread : connRead net.resp = .ok (d.take 1024) := by
      rw [hresp]
      unfold connRead
      cases d
      · exact absurd rfl hne
      · rfl
    constructor
    · unfold exchangeEvents
      rw [hdial, hread]
      rfl
    · unfold exchangeEvents
      rw [hdial, hread]
      simp [responseOf]
  · intro hresp
    unfold exchangeEvents
    rw [hdial, hresp]
    rfl
  · intro hresp
    unfold exchangeEvents
    rw [hdial, hresp]
    rfl

/-- Witness for the amended C4: a two-byte response is a valid short
read yielding exactly those bytes, and the empty response panics with
end of stream. -/
theorem c4_read_semantics_witness :
    ((exchangeEvents ⟨"example.com".data, "80".data, "/get".data⟩
        ⟨true, .deliver "hi".data⟩).2 = .success ∧
      responseOf (exchangeEvents ⟨"example.com".data, "80".data, "/get".data⟩
        ⟨true, .deliver "hi".data⟩).1 = some ("hi".data.take 1024)) ∧
    (exchangeEvents ⟨"example.com".data, "80".data, "/get".data⟩
        ⟨true, .deliver []⟩).2 = .panicked (.readError .eof) :=
  ⟨(c4_read_semantics ⟨"example.com".data, "80".data, "/get".data⟩
      ⟨true, .deliver "hi".data⟩ rfl).1 "hi".data rfl (by decide),
   (c4_read_semantics ⟨"example.com".data, "80".data, "/get".data⟩
      ⟨true, .deliver []⟩ rfl).2.1 rfl⟩

/-- C8: on every successful invocation, standard output consists of
exactly one write: the raw bytes the read produced followed by a single
newline, and the exit status is 0. -/
theorem c8_stdout (arg : List Char) (net : NetBehavior)
    (h : (runEvents arg net).2 = .success) :
    ∃ data, connRead net.resp = .ok data ∧
      stdoutOf (runEvents arg net).1 = [data ++ ['\n']] ∧
      responseOf (runEvents arg net).1 = some data ∧
      exitCode (runEvents arg net).2 = 0 := by
  unfold runEvents at h ⊢
  cases hres : resolveTarget arg with
  | error e =>
    rw [hres] at h
    simp at h
  | ok t =>
    rw [hres] at h
    unfold exchangeEvents at h ⊢
    cases hnd : net.dialOk
    · rw [hnd] at h
      simp at h
    · rw [hnd] at h
      cases hcr : connRead net.resp with
      | error e =>
        rw [hcr] at h
        simp at h
      | ok data =>
        rw [hcr] at h
        exact ⟨data, rfl, by simp [stdoutOf], by simp [responseOf], by simp [exitCode]⟩

/-- Witness for C8: the end-to-end scenario of the spec, against a stub
server answering a fixed HTTP/1.0 response. -/
theorem c8_stdout_witness :
    ∃ data,
      connRead (NetBehavior.mk true
        (.deliver "HTTP/1.0 200 OK\r\n\r\nhi".data)).resp = .ok data ∧
      stdoutOf (runEvents "http://example.com/get".data
        ⟨true, .deliver "HTTP/1.0 200 OK\r\n\r\nhi".data⟩).1 = [data ++ ['\n']] ∧
      responseOf (runEvents "http://example.com/get".data
        ⟨true, .deliver "HTTP/1.0 200 OK\r\n\r\nhi".data⟩).1 = some data ∧
      exitCode (runEvents "http://example.com/get".data
        ⟨true, .deliver "HTTP/1.0 200 OK\r\n\r\nhi".data⟩).2 = 0 :=
  c8_stdout "http://example.com/get".data
    ⟨true, .deliver "HTTP/1.0 200 OK\r\n\r\nhi".data⟩ rfl

/-- C3 counterexample: the input `"not a url"` (no scheme) parses
successfully as a relative URL with empty host — no `MalformedURLError`
occurs — and the program then attempts a TCP connection to `":80"`,
contradicting the claim that no connection is attempted. -/
theorem c3_counterexample :
    resolveTarget "not a url".data =
      .ok ⟨[], "80".data, "not a url".data⟩ ∧
    dialsOf (runEvents "not a url".data ⟨true, .deliver "x".data⟩).1 =
      [(":80".data, true)] :=
  ⟨rfl, rfl⟩

/-- C3 amended: when (and only when) `url.Parse` itself rejects the
input, the program panics before any network activity — no event at all
is emitted, in particular no dial; but inputs that merely lack a scheme
parse successfully and do reach the dial. -/
theorem c3_parse_failure_no_network (arg : List Char) (net : NetBehavior)
    (e : ParseErr) (h : urlParse arg = .error e) :
    (runEvents arg net).1 = [] ∧
    (runEvents arg net).2 = .panicked (.malformedURL e) := by
  have hres : resolveTarget arg = .error e := by
    unfold resolveTarget
    rw [h]
  unfold runEvents
  rw [hres]
  exact ⟨rfl, rfl⟩

/-- Witness for the amended C3 at an input the parser does reject (a
control character inside the URL). -/
theorem c3_parse_failure_no_network_witness :
    (runEvents ['h', 't', 't', 'p', ':', '/', '/', 'a', Char.ofNat 0, 'b']
        ⟨true, .deliver "x".data⟩).1 = [] ∧
    (runEvents ['h', 't', 't', 'p', ':', '/', '/', 'a', Char.ofNat 0, 'b']
        ⟨true, .deliver "x".data⟩).2 =
      .panicked (.malformedURL .invalidControlCharacter) :=
  c3_parse_failure_no_network _ _ .invalidControlCharacter rfl

/-- C7 counterexample: for the no-path URL the resolved path is the
empty string, and the Exchanger does not treat it as the root: the
transmitted request line is `GET  HTTP/1.0` (empty request target), not
the `GET / HTTP/1.0` a root substitution would produce. -/
theorem c7_counterexample :
    resolveTarget "http://example.com".data =
      .ok ⟨"example.com".data, "80".data, []⟩ ∧
    requestBytes ⟨"example.com".data, "80".data, []⟩ =
      "GET  HTTP/1.0\r\nHost: example.com\r\n\r\n".data ∧
    requestBytes ⟨"example.com".data, "80".data, []⟩ ≠
      requestBytes ⟨"example.com".data, "80".data, "/".data⟩ :=
  ⟨rfl, rfl, by decide⟩

/-- C7 amended: for `http://example.com/get` the resolved path is
`/get`; for `http://example.com` the resolved path is the empty string;
and the Exchanger frames whatever path it is given verbatim — the empty
path yields the request line `GET  HTTP/1.0` with no root
substitution. -/
theorem c7_path_extraction :
    resolveTarget "http://example.com/get".data =
      .ok ⟨"example.com".data, "80".data, "/get".data⟩ ∧
    resolveTarget "http://example.com".data =
      .ok ⟨"example.com".data, "80".data, []⟩ ∧
    (∀ t : RequestTarget, requestBytes t =
      "GET ".data ++ t.path ++ " HTTP/1.0\r\nHost: ".data ++ t.host ++
        "\r\n\r\n".data) :=
  ⟨rfl, rfl, requestBytes_eq⟩

namespace GoURL

/-! Lemmas about the scanning helpers. -/

theorem splitCut_not_mem {s : List Char} {sep : Char} (h : sep ∉ s) :
    splitCut s sep = (s, []) := by
  induction s with
  | nil => rfl
  | cons c cs ih =>
    have hc : ¬(c = sep) := fun he => h (he ▸ List.mem_cons_self c cs)
    have h2 : sep ∉ cs := fun hm => h (List.mem_cons_of_mem _ hm)
    simp [splitCut, hc, ih h2]

theorem splitCut_append {s q : List Char} {sep : Char} (h : sep ∉ s) :
    splitCut (s ++ sep :: q) sep = (s, q) := by
  induction s with
  | nil => simp [splitCut]
  | cons c cs ih =>
    have hc : ¬(c = sep) := fun he => h (he ▸ List.mem_cons_self c cs)
    have h2 : sep ∉ cs := fun hm => h (List.mem_cons_of_mem _ hm)
    simp [splitCut, hc, ih h2]

theorem splitCut_append_left {a r : List Char} {sep : Char} (h : sep ∉ a) :
    splitCut (a ++ r) sep = (a ++ (splitCut r sep).1, (splitCut r sep).2) := by
  induction a with
  | nil => simp
  | cons c cs ih =>
    have hc : ¬(c = sep) := fun he => h (he ▸ List.mem_cons_self c cs)
    have h2 : sep ∉ cs := fun hm => h (List.mem_cons_of_mem _ hm)
    simp [splitCut, hc, ih h2]

theorem schemeTail_some_append (x : List Char) :
    ∀ {cs : List Char} {p : List Char × List Char},
    schemeTail cs = some p → schemeTail (cs ++ x) = some (p.1, p.2 ++ x) := by
  intro cs
  induction cs with
  | nil => intro p h; simp [schemeTail] at h
  | cons c tl ih =>
    intro p h
    by_cases hc : c = ':'
    · subst hc
      simp only [schemeTail, if_true, eq_self_iff_true, Option.some.injEq] at h
      subst h
      simp [schemeTail]
    · by_cases hsc : isSchemeChar c = true
      · simp only [schemeTail, if_neg hc, if_pos hsc] at h
        cases hst : schemeTail tl with
        | none => rw [hst] at h; simp at h
        | some q =>
          rw [hst] at h
          simp only [Option.map_some', Option.some.injEq] at h
          subst h
          simp only [List.cons_append, schemeTail, if_neg hc, if_pos hsc,
            List.append_eq]
          rw [ih hst]
          rfl
      · simp only [schemeTail, if_neg hc, if_neg hsc] at h
        exact absurd h (by simp)

theorem schemeTail_none_append (q : List Char) {cs : List Char}
    (hq : '?' ∉ cs) (h : schemeTail cs = none) :
    schemeTail (cs ++ '?' :: q) = none := by
  induction cs with
  | nil =>
    have h1 : ¬(('?' : Char) = ':') := by decide
    have h2 : ¬(isSchemeChar '?' = true) := by decide
    simp only [List.nil_append, schemeTail, if_neg h1, if_neg h2]
  | cons c tl ih =>
    by_cases hc : c = ':'
    · subst hc
      simp [schemeTail] at h
    · by_cases hsc : isSchemeChar c = true
      · simp only [schemeTail, if_neg hc, if_pos hsc] at h
        cases hst : schemeTail tl with
        | none =>
          simp only [List.cons_append, schemeTail, if_neg hc, if_pos hsc,
            List.append_eq]
          rw [ih (fun hm => hq (List.mem_cons_of_mem _ hm)) hst]
          rfl
        | some p => rw [hst] at h; simp at h
      · simp only [List.cons_append, schemeTail, if_neg hc, if_neg hsc]

theorem schemeTail_rest_sublist : ∀ {cs : List Char} {p : List Char × List Char},
    schemeTail cs = some p → ∀ c, c ∈ p.2 → c ∈ cs := by
  intro cs
  induction cs with
  | nil => intro p h; simp [schemeTail] at h
  | cons c tl ih =>
    intro p h d hd
    by_cases hc : c = ':'
    · subst hc
      simp only [schemeTail, if_true, eq_self_iff_true, Option.some.injEq] at h
      subst h
      exact List.mem_cons_of_mem _ hd
    · by_cases hsc : isSchemeChar c = true
      · simp only [schemeTail, if_neg hc, if_pos hsc] at h
        cases hst : schemeTail tl with
        | none => rw [hst] at h; simp at h
        | some q =>
          rw [hst] at h
          simp only [Option.map_some', Option.some.injEq] at h
          subst h
          exact List.mem_cons_of_mem _ (ih hst d hd)
      · simp only [schemeTail, if_neg hc, if_neg hsc] at h
        exact absurd h (by simp)

/-- How `getScheme` behaves when a query (text after a first `?`) is
appended: either both invocations fail identically, or they succeed with
the same scheme and the appended rest, the unqueried rest drawing its
characters from the input. -/
theorem getScheme_append_cases (s q : List Char) (h : '?' ∉ s) :
    (getScheme s = .error .missingProtocolScheme ∧
      getScheme (s ++ '?' :: q) = .error .missingProtocolScheme) ∨
    (∃ sch rest, getScheme s = .ok (sch, rest) ∧
      getScheme (s ++ '?' :: q) = .ok (sch, rest ++ '?' :: q) ∧
      (∀ c, c ∈ rest → c ∈ s)) := by
  cases s with
  | nil =>
    right
    refine ⟨[], [], rfl, ?_, by simp⟩
    have h1 : ¬(('?' : Char) = ':') := by decide
    have h2 : isAlphaGo '?' = false := by decide
    simp [getScheme, h1, h2]
  | cons c cs =>
    by_cases hc : c = ':'
    · subst hc
      left
      constructor
      · simp [getScheme]
      · simp [getScheme]
    · by_cases ha : isAlphaGo c = true
      · cases hst : schemeTail (c :: cs) with
        | some p =>
          right
          refine ⟨p.1, p.2, ?_, ?_, ?_⟩
          · simp [getScheme, hc, ha, hst]
          · rw [List.cons_append]
            have := schemeTail_some_append ('?' :: q) hst
            rw [List.cons_append] at this
            simp [getScheme, hc, ha, this]
          · exact fun d hd => schemeTail_rest_sublist hst d hd
        | none =>
          right
          refine ⟨[], c :: cs, ?_, ?_, fun d hd => hd⟩
          · simp [getScheme, hc, ha, hst]
          · have := schemeTail_none_append q h hst
            rw [List.cons_append] at this ⊢
            simp [getScheme, hc, ha, this]
      · right
        refine ⟨[], c :: cs, ?_, ?_, fun d hd => hd⟩
        · simp [getScheme, hc, ha]
        · rw [List.cons_append]
          simp [getScheme, hc, ha]

theorem contains_false {l : List Char} {c : Char} (h : c ∉ l) :
    l.contains c = false := by
  simpa using h

/-- The force-query test holds for a lone trailing `?`. -/
theorem forceQueryCond_nil {rest : List Char} (h : '?' ∉ rest) :
    (hasSuffix (rest ++ ['?']) ['?'] &&
      !(trimSuffix (rest ++ ['?']) ['?']).contains '?') = true := by
  have hsf : hasSuffix (rest ++ ['?']) ['?'] = true := by
    simp [hasSuffix, List.isSuffixOf_iff_suffix]
  have htrim : trimSuffix (rest ++ ['?']) ['?'] = rest := by
    unfold trimSuffix
    rw [if_pos (by simpa [hasSuffix] using hsf)]
    simp
  rw [hsf, htrim, contains_false h]
  rfl

/-- The force-query test fails when the `?` is followed by a nonempty
query. -/
theorem forceQueryCond_ne {rest q : List Char} (h : '?' ∉ rest)
    (hq : q ≠ []) :
    (hasSuffix (rest ++ '?' :: q) ['?'] &&
      !(trimSuffix (rest ++ '?' :: q) ['?']).contains '?') = false := by
  cases hsf : hasSuffix (rest ++ '?' :: q) ['?'] with
  | false => rfl
  | true =>
    suffices hc : (trimSuffix (rest ++ '?' :: q) ['?']).contains '?' = true by
      rw [hc]
      rfl
    have hs' : (['?'] : List Char).isSuffixOf (rest ++ '?' :: q) = true := hsf
    unfold trimSuffix
    rw [if_pos hs']
    have hlen : (rest ++ '?' :: q).length - (['?'] : List Char).length =
        rest.length + q.length := by
      simp
    rw [hlen, List.take_append_eq_append_take,
      List.take_of_length_le (by omega)]
    have h2 : rest.length + q.length - rest.length = q.length := by omega
    rw [h2]
    cases q with
    | nil => exact absurd rfl hq
    | cons a tl =>
      simp [List.length_cons, List.take_succ_cons]

/-- The force-query test fails on a string without `?`. -/
theorem forceQueryCond_plain {rest : List Char} (h : '?' ∉ rest) :
    (hasSuffix rest ['?'] && !(trimSuffix rest ['?']).contains '?') = false := by
  have : hasSuffix rest ['?'] = false := by
    by_contra hb
    have hsuf : (['?'] : List Char) <:+ rest := by
      have := Bool.of_not_eq_false hb
      simpa [hasSuffix, List.isSuffixOf_iff_suffix] using this
    exact h (hsuf.subset (List.mem_singleton_self '?'))
  rw [this]
  rfl

theorem parseAfterScheme_plain {sch rest : List Char} (h : '?' ∉ rest) :
    parseAfterScheme sch rest = parseAfterQuery sch rest [] false := by
  unfold parseAfterScheme
  rw [forceQueryCond_plain h]
  simp [splitCut_not_mem h]

theorem parseAfterScheme_append {sch rest q : List Char} (h : '?' ∉ rest) :
    parseAfterScheme sch (rest ++ '?' :: q) =
      if q.isEmpty then parseAfterQuery sch rest [] true
      else parseAfterQuery sch rest q false := by
  cases q with
  | nil =>
    unfold parseAfterScheme
    rw [show (rest ++ '?' :: ([] : List Char)) = rest ++ ['?'] from rfl,
      forceQueryCond_nil h]
    have htrim : trimSuffix (rest ++ ['?']) ['?'] = rest := by
      unfold trimSuffix
      rw [if_pos (by simp [List.isSuffixOf_iff_suffix])]
      simp
    simp [htrim]
  | cons a tl =>
    unfold parseAfterScheme
    rw [forceQueryCond_ne h (by simp)]
    simp [splitCut_append h]

theorem parseAfterQuery_eraseQuery (sch rest rq1 rq2 : List Char)
    (fq1 fq2 : Bool) :
    (parseAfterQuery sch rest rq1 fq1).map eraseQuery =
      (parseAfterQuery sch rest rq2 fq2).map eraseQuery := by
  unfold parseAfterQuery
  split_ifs
  · rfl
  · rfl
  · dsimp only
    split
    · rfl
    · split
      · rfl
      · rfl
  · split
    · rfl
    · rfl

theorem parseAfterQuery_eraseScheme {s1 s2 : List Char}
    (rest rq : List Char) (fq : Bool)
    (h1 : s1.isEmpty = false) (h2 : s2.isEmpty = false) :
    (parseAfterQuery s1 rest rq fq).map eraseScheme =
      (parseAfterQuery s2 rest rq fq).map eraseScheme := by
  unfold parseAfterQuery
  rw [h1, h2]
  split_ifs
  · rfl
  · rfl
  · dsimp only
    split
    · rfl
    · split
      · rfl
      · rfl
  · split
    · rfl
    · rfl

theorem parseAfterScheme_eraseScheme {s1 s2 : List Char} (rest0 : List Char)
    (h1 : s1.isEmpty = false) (h2 : s2.isEmpty = false) :
    (parseAfterScheme s1 rest0).map eraseScheme =
      (parseAfterScheme s2 rest0).map eraseScheme := by
  unfold parseAfterScheme
  split_ifs with hfc
  · exact parseAfterQuery_eraseScheme _ _ _ h1 h2
  · exact parseAfterQuery_eraseScheme _ _ _ h1 h2

theorem ctl_append_query {s q : List Char} (hq : ∀ c ∈ q, isCTL c = false) :
    containsCTLByte (s ++ '?' :: q) = containsCTLByte s := by
  unfold containsCTLByte
  rw [List.any_append]
  have h1 : ('?' :: q).any isCTL = false := by
    rw [List.any_cons]
    have hx : isCTL '?' = false := by decide
    rw [hx]
    simp only [Bool.false_or]
    exact List.any_eq_false.mpr fun c hc => by rw [hq c hc]; simp
  rw [h1, Bool.or_false]

theorem append_query_ne_star {s q : List Char} : s ++ '?' :: q ≠ ['*'] := by
  cases s with
  | nil =>
    intro hcontra
    simp at hcontra
  | cons c cs =>
    intro hcontra
    simp at hcontra

theorem getScheme_star (r : List Char) : getScheme ('*' :: r) = .ok ([], '*' :: r) := by
  have hA : ¬(('*' : Char) = ':') := by decide
  have hB : ¬(isAlphaGo '*' = true) := by decide
  simp [getScheme, hA, hB]

/-- Dropping the query-related fields, parsing with and without an
appended query component gives the same result. -/
theorem parseGo_query {s q : List Char} (h1 : '?' ∉ s)
    (hq : ∀ c ∈ q, isCTL c = false) :
    (parseGo (s ++ '?' :: q)).map eraseQuery = (parseGo s).map eraseQuery := by
  unfold parseGo
  rw [ctl_append_query hq]
  cases hctl : containsCTLByte s with
  | true => rfl
  | false =>
    rw [if_neg append_query_ne_star]
    by_cases hs : s = ['*']
    · subst hs
      rw [if_pos rfl]
      have hkey : ∀ (rq : List Char) (fq : Bool),
          (parseAfterQuery [] ['*'] rq fq).map eraseQuery =
            .ok { path := ['*'] } := fun rq fq => rfl
      rw [show (['*'] : List Char) ++ '?' :: q = '*' :: '?' :: q from rfl,
        getScheme_star]
      have hstar : '?' ∉ (['*'] : List Char) := by decide
      show (parseAfterScheme (toLowerAscii []) (['*'] ++ '?' :: q)).map
          eraseQuery = _
      rw [show toLowerAscii [] = [] from rfl, parseAfterScheme_append hstar]
      cases hqe : q.isEmpty
      · rw [if_neg (by simp [hqe])]
        exact hkey q false
      · rw [if_pos (by simp [hqe])]
        exact hkey [] true
    · rw [if_neg hs]
      rcases getScheme_append_cases s q h1 with ⟨he1, he2⟩ |
        ⟨sch, rest, hg1, hg2, hmem⟩
      · rw [he1, he2]
      · rw [hg1, hg2]
        have hqr : '?' ∉ rest := fun hm => h1 (hmem _ hm)
        show (parseAfterScheme (toLowerAscii sch) (rest ++ '?' :: q)).map
            eraseQuery = (parseAfterScheme (toLowerAscii sch) rest).map
            eraseQuery
        rw [parseAfterScheme_append hqr, parseAfterScheme_plain hqr]
        cases hqe : q.isEmpty
        · rw [if_neg (by simp [hqe])]
          exact parseAfterQuery_eraseQuery _ _ _ _ _ _
        · rw [if_pos (by simp [hqe])]
          exact parseAfterQuery_eraseQuery _ _ _ _ _ _

theorem urlParse_noFrag {x : List Char} (h : '#' ∉ x) :
    urlParse x = parseGo x := by
  unfold urlParse
  rw [splitCut_not_mem h]
  dsimp only
  cases hp : parseGo x with
  | error e => rfl
  | ok u => rfl

@[simp] theorem except_map_error {ε α β : Type} (f : α → β) (e : ε) :
    (Except.error e : Except ε α).map f = .error e := rfl

@[simp] theorem except_map_ok {ε α β : Type} (f : α → β) (x : α) :
    (Except.ok x : Except ε α).map f = .ok (f x) := rfl

/-- Two inputs whose parses agree after applying a field-erasing map
that keeps host and path resolve to the same request target. -/
theorem resolveTarget_congr {a b : List Char} (f : URL → URL)
    (hh : ∀ u, (f u).host = u.host) (hp : ∀ u, (f u).path = u.path)
    (h : (urlParse a).map f = (urlParse b).map f) :
    resolveTarget a = resolveTarget b := by
  unfold resolveTarget
  cases ha : urlParse a with
  | error e1 =>
    cases hb : urlParse b with
    | error e2 =>
      rw [ha, hb] at h
      simp at h
      rw [h]
    | ok u2 =>
      rw [ha, hb] at h
      simp at h
  | ok u1 =>
    cases hb : urlParse b with
    | error e2 =>
      rw [ha, hb] at h
      simp at h
    | ok u2 =>
      rw [ha, hb] at h
      simp at h
      have hhost : u1.host = u2.host := by rw [← hh u1, ← hh u2, h]
      have hpath : u1.path = u2.path := by rw [← hp u1, ← hp u2, h]
      simp [hostnameOf, portOf, hhost, hpath]

theorem runEvents_congr {a b : List Char}
    (h : resolveTarget a = resolveTarget b) (net : NetBehavior) :
    runEvents a net = runEvents b net := by
  unfold runEvents
  rw [h]

end GoURL

open GoURL Curl

/-- C10: appending a query component to a URL (text after a `?`, itself
free of `#` and control bytes) leaves the resolved request target — and
hence the dialed address and every transmitted byte — unchanged: the
query is silently dropped. -/
theorem c10_query_dropped (s q : List Char) (h1 : '?' ∉ s) (h2 : '#' ∉ s)
    (h3 : '#' ∉ q) (h4 : ∀ c ∈ q, isCTL c = false) :
    resolveTarget (s ++ '?' :: q) = resolveTarget s ∧
    ∀ net, runEvents (s ++ '?' :: q) net = runEvents s net := by
  have hfz : '#' ∉ s ++ '?' :: q := by
    intro hm
    rcases List.mem_append.mp hm with hms | hmq
    · exact h2 hms
    · rcases List.mem_cons.mp hmq with he | hmq2
      · exact absurd he (by decide)
      · exact h3 hmq2
  have hres : resolveTarget (s ++ '?' :: q) = resolveTarget s :=
    resolveTarget_congr eraseQuery (fun u => rfl) (fun u => rfl) (by
      rw [urlParse_noFrag hfz, urlParse_noFrag h2]
      exact parseGo_query h1 h4)
  exact ⟨hres, fun net => runEvents_congr hres net⟩

/-- Witness for C10 at `http://example.com/get` with query `x=1`. -/
theorem c10_query_dropped_witness :
    resolveTarget ("http://example.com/get".data ++ '?' :: "x=1".data) =
      resolveTarget "http://example.com/get".data ∧
    ∀ net, runEvents ("http://example.com/get".data ++ '?' :: "x=1".data) net =
      runEvents "http://example.com/get".data net :=
  c10_query_dropped "http://example.com/get".data "x=1".data
    (by decide) (by decide) (by decide) (by decide)

namespace GoURL

theorem schemeChar_not_ctl {c : Char} (h : isSchemeChar c = true) :
    isCTL c = false := by
  simp only [isSchemeChar, isAlphaGo, isDigitGo, Bool.or_eq_true,
    Bool.and_eq_true, decide_eq_true_eq] at h
  rcases h with ((((⟨ha, hb⟩ | ⟨ha, hb⟩) | ⟨ha, hb⟩) | rfl) | rfl) | rfl
  · simp only [isCTL, Bool.or_eq_false_iff, decide_eq_false_iff_not,
      Nat.not_lt, beq_eq_false_iff_ne, ne_eq]
    omega
  · simp only [isCTL, Bool.or_eq_false_iff, decide_eq_false_iff_not,
      Nat.not_lt, beq_eq_false_iff_ne, ne_eq]
    omega
  · simp only [isCTL, Bool.or_eq_false_iff, decide_eq_false_iff_not,
      Nat.not_lt, beq_eq_false_iff_ne, ne_eq]
    omega
  · decide
  · decide
  · decide

theorem validScheme_nonempty {sch : List Char}
    (h : isValidSchemeName sch = true) : sch.isEmpty = false := by
  cases sch with
  | nil => simp [isValidSchemeName] at h
  | cons c cs => rfl

theorem validScheme_chars {sch : List Char}
    (h : isValidSchemeName sch = true) :
    ∀ c ∈ sch, isSchemeChar c = true := by
  cases sch with
  | nil => simp [isValidSchemeName] at h
  | cons c cs =>
    simp only [isValidSchemeName, Bool.and_eq_true, List.all_eq_true] at h
    obtain ⟨h1, h2⟩ := h
    intro d hd
    rcases List.mem_cons.mp hd with he | hm
    · subst he
      simp [isSchemeChar, h1]
    · exact h2 d hm

theorem hash_not_mem_scheme {sch : List Char}
    (h : isValidSchemeName sch = true) : '#' ∉ sch := by
  intro hm
  have := validScheme_chars h '#' hm
  exact absurd this (by decide)

theorem ctl_after_scheme {sch : List Char}
    (h : isValidSchemeName sch = true) (x : List Char) :
    containsCTLByte (sch ++ x) = containsCTLByte x := by
  unfold containsCTLByte
  rw [List.any_append]
  have hs : sch.any isCTL = false :=
    List.any_eq_false.mpr fun c hc => by
      rw [schemeChar_not_ctl (validScheme_chars h c hc)]
      simp
  rw [hs, Bool.false_or]

theorem scheme_colon_ne_star {sch r : List Char} (h : sch ≠ []) :
    sch ++ ':' :: r ≠ ['*'] := by
  cases sch with
  | nil => exact absurd rfl h
  | cons c cs =>
    intro hcontra
    simp at hcontra

theorem schemeTail_valid {cs : List Char}
    (h : ∀ x ∈ cs, isSchemeChar x = true) (r : List Char) :
    schemeTail (cs ++ ':' :: r) = some (cs, r) := by
  induction cs with
  | nil => simp [schemeTail]
  | cons c tl ih =>
    have hcc : isSchemeChar c = true := h c (List.mem_cons_self _ _)
    have hc : ¬(c = ':') := fun he => by
      rw [he] at hcc
      exact absurd hcc (by decide)
    rw [List.cons_append]
    simp only [schemeTail, if_neg hc, if_pos hcc,
      ih fun x hx => h x (List.mem_cons_of_mem _ hx), Option.map_some']

theorem getScheme_valid {sch : List Char}
    (h : isValidSchemeName sch = true) (r : List Char) :
    getScheme (sch ++ ':' :: r) = .ok (sch, r) := by
  cases sch with
  | nil => simp [isValidSchemeName] at h
  | cons c cs =>
    simp only [isValidSchemeName, Bool.and_eq_true, List.all_eq_true] at h
    obtain ⟨h1, h2⟩ := h
    have hc : ¬(c = ':') := fun he => by
      rw [he] at h1
      exact absurd h1 (by decide)
    have hcc : isSchemeChar c = true := by simp [isSchemeChar, h1]
    have htail : schemeTail ((c :: cs) ++ ':' :: r) = some (c :: cs, r) := by
      rw [List.cons_append]
      simp only [schemeTail, if_neg hc, if_pos hcc,
        schemeTail_valid h2 r, Option.map_some']
    rw [List.cons_append]
    simp only [getScheme, if_neg hc, if_pos h1]
    rw [← List.cons_append, htail]

theorem toLowerAscii_isEmpty (s : List Char) :
    (toLowerAscii s).isEmpty = s.isEmpty := by
  cases s <;> rfl

/-- Dropping the scheme field, parsing with one valid scheme name or
another gives the same result. -/
theorem parseGo_scheme {s1 s2 : List Char} (r : List Char)
    (h1 : isValidSchemeName s1 = true) (h2 : isValidSchemeName s2 = true) :
    (parseGo (s1 ++ ':' :: r)).map eraseScheme =
      (parseGo (s2 ++ ':' :: r)).map eraseScheme := by
  unfold parseGo
  rw [ctl_after_scheme h1 (':' :: r), ctl_after_scheme h2 (':' :: r)]
  cases hctl : containsCTLByte (':' :: r) with
  | true => rfl
  | false =>
    have hne1 : s1 ≠ [] := by
      intro he
      rw [he] at h1
      simp [isValidSchemeName] at h1
    have hne2 : s2 ≠ [] := by
      intro he
      rw [he] at h2
      simp [isValidSchemeName] at h2
    rw [if_neg (scheme_colon_ne_star hne1), if_neg (scheme_colon_ne_star hne2),
      getScheme_valid h1 r, getScheme_valid h2 r]
    exact parseAfterScheme_eraseScheme r
      (by rw [toLowerAscii_isEmpty]; exact validScheme_nonempty h1)
      (by rw [toLowerAscii_isEmpty]; exact validScheme_nonempty h2)

theorem urlParse_eraseScheme {s1 s2 : List Char} (r : List Char)
    (h1 : isValidSchemeName s1 = true) (h2 : isValidSchemeName s2 = true) :
    (urlParse (s1 ++ ':' :: r)).map eraseScheme =
      (urlParse (s2 ++ ':' :: r)).map eraseScheme := by
  unfold urlParse
  have hsp : ∀ sch : List Char, isValidSchemeName sch = true →
      splitCut (sch ++ ':' :: r) '#' =
        (sch ++ ':' :: (splitCut r '#').1, (splitCut r '#').2) := by
    intro sch hv
    have hns : '#' ∉ sch ++ [':'] := by
      intro hm
      rcases List.mem_append.mp hm with hm1 | hm2
      · exact hash_not_mem_scheme hv hm1
      · rcases List.mem_singleton.mp hm2 with he
        exact absurd he (by decide)
    have hassoc : sch ++ ':' :: r = (sch ++ [':']) ++ r := by simp
    rw [hassoc, splitCut_append_left hns]
    simp
  rw [hsp s1 h1, hsp s2 h2]
  dsimp only
  have hcore := parseGo_scheme (splitCut r '#').1 h1 h2
  cases hp1 : parseGo (s1 ++ ':' :: (splitCut r '#').1) with
  | error e1 =>
    cases hp2 : parseGo (s2 ++ ':' :: (splitCut r '#').1) with
    | error e2 =>
      rw [hp1, hp2] at hcore
      simp at hcore
      rw [hcore]
    | ok u2 =>
      rw [hp1, hp2] at hcore
      simp at hcore
  | ok u1 =>
    cases hp2 : parseGo (s2 ++ ':' :: (splitCut r '#').1) with
    | error e2 =>
      rw [hp1, hp2] at hcore
      simp at hcore
    | ok u2 =>
      rw [hp1, hp2] at hcore
      simp at hcore
      dsimp only
      by_cases hfr : (splitCut r '#').2 = []
      · rw [if_pos hfr, if_pos hfr]
        simpa using hcore
      · rw [if_neg hfr, if_neg hfr]
        cases hu : unescapeGo .encFragment (splitCut r '#').2 with
        | error e => rfl
        | ok fr =>
          have hstep : ∀ u : URL,
              eraseScheme { u with fragment := fr } =
                { eraseScheme u with fragment := fr } := fun u => rfl
          simp only [except_map_ok, hstep, hcore]

end GoURL

open GoURL Curl

/-- C9: two inputs that differ only in their (syntactically valid)
scheme resolve to the same request target, and the whole observable run
— dial address, transmitted bytes, output — is identical; the scheme is
never consulted for the port default. -/
theorem c9_scheme_independence (s1 s2 r : List Char)
    (h1 : isValidSchemeName s1 = true) (h2 : isValidSchemeName s2 = true) :
    resolveTarget (s1 ++ ':' :: r) = resolveTarget (s2 ++ ':' :: r) ∧
    ∀ net, runEvents (s1 ++ ':' :: r) net = runEvents (s2 ++ ':' :: r) net := by
  have hres : resolveTarget (s1 ++ ':' :: r) = resolveTarget (s2 ++ ':' :: r) :=
    resolveTarget_congr eraseScheme (fun u => rfl) (fun u => rfl)
      (urlParse_eraseScheme r h1 h2)
  exact ⟨hres, fun net => runEvents_congr hres net⟩

/-- Witness for C9: `http` versus `https` on the same authority and
path. -/
theorem c9_scheme_independence_witness :
    resolveTarget ("http".data ++ ':' :: "//example.com/x".data) =
      resolveTarget ("https".data ++ ':' :: "//example.com/x".data) ∧
    ∀ net, runEvents ("http".data ++ ':' :: "//example.com/x".data) net =
      runEvents ("https".data ++ ':' :: "//example.com/x".data) net :=
  c9_scheme_independence "http".data "https".data "//example.com/x".data
    (by decide) (by decide)

namespace GoURL

/-! Lemmas for the port-resolution claim: percent-decoding in host mode
preserves the trailing port text, and `splitHostPort` recovers it. -/

theorem charOfNat_toNat {n : Nat} (h : n < 55296) :
    (Char.ofNat n).toNat = n := by
  have hv : n.isValidChar := Or.inl (by omega)
  unfold Char.ofNat
  rw [dif_pos hv]
  rfl

theorem unhex_le {c : Char} : unhex c ≤ 15 := by
  unfold unhex
  split_ifs with hA hB hC
  · simp only [Bool.and_eq_true, decide_eq_true_eq] at hA
    omega
  · simp only [Bool.and_eq_true, decide_eq_true_eq] at hB
    omega
  · simp only [Bool.and_eq_true, decide_eq_true_eq] at hC
    omega
  · omega

theorem unhex_lt_of_ishex {c : Char} (h : ishex c = true) : unhex c ≤ 15 :=
  unhex_le

/-- A string without `%` decodes (in host mode) to itself. -/
theorem unhost_no_escape : ∀ {s d : List Char}, '%' ∉ s →
    unescapeGo .encHost s = .ok d → d = s := by
  intro s
  induction s with
  | nil =>
    intro d hm hu
    have hu2 : (Except.ok [] : Except ParseErr (List Char)) = .ok d := hu
    exact (Except.ok.inj hu2).symm
  | cons c rest ih =>
    intro d hm hu
    have hc : ¬(c = '%') := fun he => hm (he ▸ List.mem_cons_self _ _)
    unfold unescapeGo at hu
    rw [if_neg hc] at hu
    split at hu
    · exact absurd hu (by simp)
    · cases hrec : unescapeGo .encHost rest with
      | error e =>
        rw [hrec] at hu
        exact absurd hu (by simp)
      | ok t =>
        rw [hrec] at hu
        have ht := ih (fun hmm => hm (List.mem_cons_of_mem _ hmm)) hrec
        rw [← (Except.ok.inj hu), ht]

/-- Host-mode decoding of `a ++ c₀ :: b`, where `c₀` is not hex and not
`%` and `b` is escape-free: every escape lies inside `a`, so the suffix
`c₀ :: b` survives verbatim. -/
theorem unhost_barrier (c₀ : Char) (hc1 : ¬(c₀ = '%')) (hc2 : ishex c₀ = false) :
    ∀ (n : Nat) (a b d : List Char), a.length ≤ n → '%' ∉ b →
      unescapeGo .encHost (a ++ c₀ :: b) = .ok d →
      ∃ da, unescapeGo .encHost a = .ok da ∧ d = da ++ c₀ :: b := by
  intro n
  induction n with
  | zero =>
    intro a b d hlen hb hu
    have ha : a = [] := List.eq_nil_of_length_eq_zero (Nat.le_zero.mp hlen)
    subst ha
    refine ⟨[], rfl, ?_⟩
    rw [List.nil_append] at hu ⊢
    exact unhost_no_escape (fun hm => by
      rcases List.mem_cons.mp hm with he | hm2
      · exact hc1 he.symm
      · exact hb hm2) hu
  | succ n ih =>
    intro a b d hlen hb hu
    cases a with
    | nil =>
      refine ⟨[], rfl, ?_⟩
      rw [List.nil_append] at hu ⊢
      exact unhost_no_escape (fun hm => by
        rcases List.mem_cons.mp hm with he | hm2
        · exact hc1 he.symm
        · exact hb hm2) hu
    | cons c a' =>
      rw [List.cons_append] at hu
      by_cases hc : c = '%'
      · subst hc
        unfold unescapeGo at hu
        rw [if_pos rfl] at hu
        cases a' with
        | nil =>
          cases b with
          | nil => simp at hu
          | cons b0 b' =>
            rw [List.nil_append] at hu
            dsimp only at hu
            have hhex : ¬((ishex c₀ && ishex b0) = true) := by simp [hc2]
            rw [if_neg hhex] at hu
            simp at hu
        | cons x a2 =>
          cases a2 with
          | nil =>
            rw [List.cons_append, List.nil_append] at hu
            dsimp only at hu
            have hhex : ¬((ishex x && ishex c₀) = true) := by simp [hc2]
            rw [if_neg hhex] at hu
            simp at hu
          | cons y a3 =>
            rw [List.cons_append, List.cons_append] at hu
            dsimp only at hu
            split at hu
            · split at hu
              · simp at hu
              · split at hu
                · simp at hu
                · rename_i hhex hchk1 hchk2
                  cases hrec : unescapeGo .encHost (a3 ++ c₀ :: b) with
                  | error e =>
                    rw [hrec] at hu
                    simp at hu
                  | ok t =>
                    rw [hrec] at hu
                    simp only [Except.ok.injEq] at hu
                    obtain ⟨da3, hda3, ht⟩ := ih a3 b t (by
                      simp only [List.length_cons] at hlen
                      omega) hb hrec
                    refine ⟨Char.ofNat (unhex x * 16 + unhex y) :: da3, ?_, ?_⟩
                    · unfold unescapeGo
                      rw [if_pos rfl]
                      dsimp only
                      rw [if_pos hhex, if_neg hchk1, if_neg hchk2, hda3]
                    · rw [← hu, ht]
                      rfl
            · simp at hu
      · unfold unescapeGo at hu
        rw [if_neg hc] at hu
        split at hu
        · simp at hu
        · rename_i hraw
          cases hrec : unescapeGo .encHost (a' ++ c₀ :: b) with
          | error e =>
            rw [hrec] at hu
            simp at hu
          | ok t =>
            rw [hrec] at hu
            simp only [Except.ok.injEq] at hu
            obtain ⟨da', hda', ht⟩ := ih a' b t (by
              simp only [List.length_cons] at hlen
              omega) hb hrec
            refine ⟨c :: da', ?_, ?_⟩
            · unfold unescapeGo
              rw [if_neg hc, if_neg hraw, hda']
            · rw [← hu, ht]
              rfl

theorem hostEscapeChar_ne_colon {x y : Char}
    (h : 8 ≤ unhex x ∨ (x = '2' ∧ y = '5')) :
    ¬(Char.ofNat (unhex x * 16 + unhex y) = ':') := by
  rcases h with h8 | ⟨rfl, rfl⟩
  · intro he
    have hx : unhex x ≤ 15 := unhex_le
    have hy : unhex y ≤ 15 := unhex_le
    have hlt : unhex x * 16 + unhex y < 55296 := by omega
    have hval := charOfNat_toNat hlt
    rw [he] at hval
    have hcol : (':' : Char).toNat = 58 := by decide
    rw [hcol] at hval
    omega
  · decide

/-- Host-mode decoding cannot introduce a colon: every decoded escape is
either `%` (from `%25`) or a byte at or above 0x80. -/
theorem unhost_no_colon : ∀ (n : Nat) (s d : List Char), s.length ≤ n →
    unescapeGo .encHost s = .ok d → ':' ∉ s → ':' ∉ d := by
  intro n
  induction n with
  | zero =>
    intro s d hlen hu hs
    have ha : s = [] := List.eq_nil_of_length_eq_zero (Nat.le_zero.mp hlen)
    subst ha
    have hu2 : (Except.ok [] : Except ParseErr (List Char)) = .ok d := hu
    rw [← Except.ok.inj hu2]
    simp
  | succ n ih =>
    intro s d hlen hu hs
    cases s with
    | nil =>
      have hu2 : (Except.ok [] : Except ParseErr (List Char)) = .ok d := hu
      rw [← Except.ok.inj hu2]
      simp
    | cons c s' =>
      by_cases hc : c = '%'
      · subst hc
        unfold unescapeGo at hu
        rw [if_pos rfl] at hu
        cases s' with
        | nil => simp at hu
        | cons x s2 =>
          cases s2 with
          | nil => simp at hu
          | cons y s3 =>
            dsimp only at hu
            split at hu
            · split at hu
              · simp at hu
              · split at hu
                · simp at hu
                · rename_i hhex hchk1 hchk2
                  cases hrec : unescapeGo .encHost s3 with
                  | error e =>
                    rw [hrec] at hu
                    simp at hu
                  | ok t =>
                    rw [hrec] at hu
                    simp only [Except.ok.injEq] at hu
                    rw [← hu]
                    intro hm
                    simp only [Bool.and_eq_true, decide_eq_true_eq,
                      Bool.not_eq_true', Bool.and_eq_false_iff,
                      decide_eq_false_iff_not] at hchk1
                    rcases List.mem_cons.mp hm with he | hm2
                    · refine hostEscapeChar_ne_colon ?_ he.symm
                      by_cases h8 : unhex x < 8
                      · right
                        by_cases hx2 : x = '2'
                        · by_cases hy5 : y = '5'
                          · exact ⟨hx2, hy5⟩
                          · exact (hchk1 ⟨⟨trivial, h8⟩, Or.inr hy5⟩).elim
                        · exact (hchk1 ⟨⟨trivial, h8⟩, Or.inl hx2⟩).elim
                      · left
                        omega
                    · exact ih s3 t (by
                        simp only [List.length_cons] at hlen
                        omega) hrec (fun hmm =>
                          hs (List.mem_cons_of_mem _
                            (List.mem_cons_of_mem _
                              (List.mem_cons_of_mem _ hmm)))) hm2
            · simp at hu
      · unfold unescapeGo at hu
        rw [if_neg hc] at hu
        split at hu
        · simp at hu
        · cases hrec : unescapeGo .encHost s' with
          | error e =>
            rw [hrec] at hu
            simp at hu
          | ok t =>
            rw [hrec] at hu
            simp only [Except.ok.injEq] at hu
            rw [← hu]
            intro hm
            rcases List.mem_cons.mp hm with he | hm2
            · exact hs (he ▸ List.mem_cons_self _ _)
            · exact ih s' t (by
                simp only [List.length_cons] at hlen
                omega) hrec (fun hmm => hs (List.mem_cons_of_mem _ hmm)) hm2

theorem lastIndexOf?_eq_none {l : List Char} {c : Char} (h : c ∉ l) :
    lastIndexOf? l c = none := by
  induction l with
  | nil => rfl
  | cons x xs ih =>
    have hx : ¬(x = c) := fun he => h (he ▸ List.mem_cons_self _ _)
    simp only [lastIndexOf?, ih fun hm => h (List.mem_cons_of_mem _ hm),
      if_neg hx]

theorem not_mem_of_lastIndexOf?_none {l : List Char} {c : Char}
    (h : lastIndexOf? l c = none) : c ∉ l := by
  induction l with
  | nil => simp
  | cons x xs ih =>
    simp only [lastIndexOf?] at h
    cases hxs : lastIndexOf? xs c with
    | some j =>
      rw [hxs] at h
      simp at h
    | none =>
      rw [hxs] at h
      by_cases hx : x = c
      · rw [if_pos hx] at h
        simp at h
      · rw [if_neg hx] at h
        intro hm
        rcases List.mem_cons.mp hm with he | hm2
        · exact hx he.symm
        · exact ih hxs hm2

theorem lastIndexOf?_append {a b : List Char} {c : Char} (h : c ∉ b) :
    lastIndexOf? (a ++ c :: b) c = some a.length := by
  induction a with
  | nil =>
    simp [lastIndexOf?, lastIndexOf?_eq_none h]
  | cons x xs ih =>
    simp only [List.cons_append, lastIndexOf?, List.append_eq, ih,
      List.length_cons]

theorem lastIndexOf?_append_not_mem {a b : List Char} {c : Char} (h : c ∉ b) :
    lastIndexOf? (a ++ b) c = lastIndexOf? a c := by
  induction a with
  | nil =>
    simp only [List.nil_append, lastIndexOf?_eq_none h, lastIndexOf?]
  | cons x xs ih =>
    simp only [List.cons_append, lastIndexOf?, List.append_eq, ih]

theorem lastIndexOf?_spec {c : Char} : ∀ {l : List Char} {i : Nat},
    lastIndexOf? l c = some i →
    i < l.length ∧ l.drop i = c :: l.drop (i + 1) ∧ c ∉ l.drop (i + 1) := by
  intro l
  induction l with
  | nil => intro i h; simp [lastIndexOf?] at h
  | cons x xs ih =>
    intro i h
    simp only [lastIndexOf?] at h
    cases hxs : lastIndexOf? xs c with
    | some j =>
      rw [hxs] at h
      simp only [Option.some.injEq] at h
      subst h
      obtain ⟨hj1, hj2, hj3⟩ := ih hxs
      refine ⟨by simp [List.length_cons]; omega, ?_, ?_⟩
      · rw [List.drop_succ_cons, List.drop_succ_cons, hj2]
      · rw [List.drop_succ_cons]
        exact hj3
    | none =>
      rw [hxs] at h
      by_cases hx : x = c
      · rw [if_pos hx] at h
        simp only [Option.some.injEq] at h
        subst h
        refine ⟨by simp, ?_, ?_⟩
        · rw [hx]
          simp
        · simp only [List.drop_succ_cons, List.drop_zero]
          exact not_mem_of_lastIndexOf?_none hxs
      · rw [if_neg hx] at h
        simp at h

theorem validOptionalPort_cases {cp : List Char}
    (h : validOptionalPort cp = true) :
    cp = [] ∨ ∃ ds, cp = ':' :: ds ∧ ds.all isDigitGo = true := by
  cases cp with
  | nil => exact Or.inl rfl
  | cons c rest =>
    right
    simp only [validOptionalPort, Bool.and_eq_true, decide_eq_true_eq] at h
    exact ⟨rest, by rw [h.1], h.2⟩

theorem digits_no_colon {ds : List Char} (h : ds.all isDigitGo = true) :
    ':' ∉ ds := by
  intro hm
  have := List.all_eq_true.mp h ':' hm
  exact absurd this (by decide)

theorem digits_no_percent {ds : List Char} (h : ds.all isDigitGo = true) :
    '%' ∉ ds := by
  intro hm
  have := List.all_eq_true.mp h '%' hm
  exact absurd this (by decide)

theorem digits_no_rbracket {ds : List Char} (h : ds.all isDigitGo = true) :
    ']' ∉ ds := by
  intro hm
  have := List.all_eq_true.mp h ']' hm
  exact absurd this (by decide)

theorem splitHostPort_port_of_digits {da ds : List Char}
    (hd : ds.all isDigitGo = true) :
    (splitHostPort (da ++ ':' :: ds)).2 = ds := by
  unfold splitHostPort
  rw [lastIndexOf?_append (digits_no_colon hd)]
  dsimp only
  have hdrop : (da ++ ':' :: ds).drop da.length = ':' :: ds :=
    List.drop_left da (':' :: ds)
  have hdrop1 : (da ++ ':' :: ds).drop (da.length + 1) = ds := by
    rw [List.drop_append_eq_append_drop,
      List.drop_eq_nil_of_le (by omega),
      show da.length + 1 - da.length = 1 from by omega]
    rfl
  rw [hdrop, hdrop1]
  have hvp : validOptionalPort (':' :: ds) = true := by
    simp [validOptionalPort, hd]
  rw [hvp]
  rfl

theorem splitHostPort_no_colon {h : List Char} (hc : ':' ∉ h) :
    (splitHostPort h).2 = [] := by
  unfold splitHostPort
  rw [lastIndexOf?_eq_none hc]

theorem splitHostPort_rbracket_end {da : List Char} :
    (splitHostPort (da ++ [']'])).2 = [] := by
  unfold splitHostPort
  rw [lastIndexOf?_append_not_mem (show ':' ∉ ([']'] : List Char) from by decide)]
  cases hli : lastIndexOf? da ':' with
  | none => rfl
  | some j =>
    dsimp only
    obtain ⟨hj1, hj2, hj3⟩ := lastIndexOf?_spec hli
    have hdropj : (da ++ [']']).drop j = da.drop j ++ [']'] := by
      rw [List.drop_append_eq_append_drop,
        show j - da.length = 0 from by omega]
      rfl
    have hbad : isDigitGo ']' = false := by decide
    have hvp : validOptionalPort ((da ++ [']']).drop j) = false := by
      rw [hdropj, hj2, List.cons_append]
      simp [validOptionalPort, List.all_append, hbad]
    rw [hvp]
    rfl

theorem port_getD_if {ds : List Char} (hd : ds.all isDigitGo = true) :
    ((if !ds.isEmpty && ds.all isDigitGo then some ds else none).getD
      ([] : List Char)) = ds := by
  cases ds with
  | nil => rfl
  | cons a tl => simp [hd]

theorem cp_no_percent {cp : List Char} (h : validOptionalPort cp = true) :
    '%' ∉ cp := by
  rcases validOptionalPort_cases h with rfl | ⟨ds, rfl, hds⟩
  · simp
  · intro hm
    rcases List.mem_cons.mp hm with he | hm2
    · exact absurd he (by decide)
    · exact digits_no_percent hds hm2

/-- The central host lemma: when `parseHost` accepts a raw
`host[:port]` string, `splitHostPort` applied to the decoded host
recovers exactly the explicit port digits written in the raw text (or
nothing when no nonempty port was written). -/
theorem parseHost_port {raw h : List Char} (hp : parseHost raw = .ok h) :
    (splitHostPort h).2 = (explicitPortOf raw).getD [] := by
  unfold parseHost at hp
  by_cases hbr : (['['] : List Char).isPrefixOf raw = true
  · rw [if_pos hbr] at hp
    cases hli : lastIndexOf? raw ']' with
    | none =>
      rw [hli] at hp
      simp at hp
    | some i =>
      rw [hli] at hp
      dsimp only at hp
      obtain ⟨hi1, hi2, hi3⟩ := lastIndexOf?_spec hli
      split at hp
      · simp at hp
      · rename_i hvpf
        have hvp : validOptionalPort (raw.drop (i + 1)) = true := by
          cases hb : validOptionalPort (raw.drop (i + 1))
          · exact absurd hb hvpf
          · rfl
        have hPcp : '%' ∉ ']' :: raw.drop (i + 1) := by
          intro hm
          rcases List.mem_cons.mp hm with he | hm2
          · exact absurd he (by decide)
          · exact cp_no_percent hvp hm2
        have hfin : ∀ pre : List Char,
            (splitHostPort (pre ++ ']' :: raw.drop (i + 1))).2 =
              (explicitPortOf raw).getD [] := by
          intro pre
          unfold explicitPortOf
          rw [if_pos hbr, hli]
          dsimp only
          rcases validOptionalPort_cases hvp with hcp | ⟨ds, hcp, hds⟩
          · rw [hcp]
            rw [show pre ++ ']' :: ([] : List Char) = pre ++ [']'] from rfl,
              splitHostPort_rbracket_end]
            rfl
          · rw [hcp]
            rw [show pre ++ ']' :: ':' :: ds = (pre ++ [']']) ++ ':' :: ds
              from by simp, splitHostPort_port_of_digits hds]
            exact (port_getD_if hds).symm
        cases hz : indexOfSub? ['%', '2', '5'] (raw.take i) with
        | some zone =>
          rw [hz] at hp
          dsimp only at hp
          cases hu1 : unescapeGo .encHost (raw.take zone) with
          | error e =>
            rw [hu1] at hp
            simp at hp
          | ok host1 =>
            rw [hu1] at hp
            cases hu2 : unescapeGo .encZone ((raw.take i).drop zone) with
            | error e =>
              rw [hu2] at hp
              simp at hp
            | ok host2 =>
              rw [hu2] at hp
              cases hu3 : unescapeGo .encHost (raw.drop i) with
              | error e =>
                rw [hu3] at hp
                simp at hp
              | ok host3 =>
                rw [hu3] at hp
                simp only [Except.ok.injEq] at hp
                rw [hi2] at hu3
                have h3 : host3 = ']' :: raw.drop (i + 1) :=
                  unhost_no_escape hPcp hu3
                rw [← hp, h3]
                exact hfin (host1 ++ host2)
        | none =>
          rw [hz] at hp
          dsimp only at hp
          cases hu : unescapeGo .encHost raw with
          | error e =>
            rw [hu] at hp
            simp at hp
          | ok h' =>
            rw [hu] at hp
            simp only [Except.ok.injEq] at hp
            have hraw : raw = raw.take i ++ ']' :: raw.drop (i + 1) := by
              conv_lhs => rw [← List.take_append_drop i raw]
              rw [hi2]
            rw [hraw] at hu
            obtain ⟨da, hda, hdeq⟩ :=
              unhost_barrier ']' (by decide) (by decide)
                (raw.take i).length (raw.take i) (raw.drop (i + 1)) h'
                le_rfl (fun hm => hPcp (List.mem_cons_of_mem _ hm)) hu
            rw [← hp, hdeq]
            exact hfin da
  · rw [if_neg hbr] at hp
    cases hli : lastIndexOf? raw ':' with
    | none =>
      cases hu : unescapeGo .encHost raw with
      | error e =>
        rw [hli, hu] at hp
        simp at hp
      | ok h' =>
        rw [hli, hu] at hp
        simp only [Except.ok.injEq] at hp
        have hnc : ':' ∉ h' := unhost_no_colon raw.length raw h' le_rfl hu
          (not_mem_of_lastIndexOf?_none hli)
        rw [← hp, splitHostPort_no_colon hnc]
        unfold explicitPortOf
        rw [if_neg hbr, hli]
        rfl
    | some i =>
      rw [hli] at hp
      dsimp only at hp
      split at hp
      · simp at hp
      · rename_i hvpf
        have hvp : validOptionalPort (raw.drop i) = true := by
          cases hb : validOptionalPort (raw.drop i)
          · exact absurd hb hvpf
          · rfl
        obtain ⟨hi1, hi2, hi3⟩ := lastIndexOf?_spec hli
        rw [hi2] at hvp
        have hds : (raw.drop (i + 1)).all isDigitGo = true := by
          simpa [validOptionalPort] using hvp
        cases hu : unescapeGo .encHost raw with
        | error e =>
          rw [hu] at hp
          simp at hp
        | ok h' =>
          rw [hu] at hp
          simp only [Except.ok.injEq] at hp
          have hraw : raw = raw.take i ++ ':' :: raw.drop (i + 1) := by
            conv_lhs => rw [← List.take_append_drop i raw]
            rw [hi2]
          rw [hraw] at hu
          obtain ⟨da, hda, hdeq⟩ :=
            unhost_barrier ':' (by decide) (by decide)
              (raw.take i).length (raw.take i) (raw.drop (i + 1)) h'
              le_rfl (digits_no_percent hds) hu
          rw [← hp, hdeq, splitHostPort_port_of_digits hds]
          unfold explicitPortOf
          rw [if_neg hbr, hli]
          dsimp only
          exact (port_getD_if hds).symm

theorem parseAuthority_host {a h : List Char}
    (hp : parseAuthority a = .ok h) : parseHost (afterLastAt a) = .ok h := by
  unfold parseAuthority at hp
  unfold afterLastAt
  cases hli : lastIndexOf? a '@' with
  | none =>
    rw [hli] at hp
    exact hp
  | some i =>
    rw [hli] at hp
    dsimp only at hp ⊢
    cases hph : parseHost (a.drop (i + 1)) with
    | error e =>
      rw [hph] at hp
      simp at hp
    | ok host =>
      rw [hph] at hp
      dsimp only at hp
      split at hp
      · simp at hp
      · split at hp
        · cases hu : unescapeGo .encUserPassword (a.take i) with
          | error e =>
            rw [hu] at hp
            simp at hp
          | ok w =>
            rw [hu] at hp
            simp only [Except.ok.injEq] at hp
            rw [hp]
        · cases hu1 : unescapeGo .encUserPassword
              ((a.take i).takeWhile (· ≠ ':')) with
          | error e =>
            rw [hu1] at hp
            simp at hp
          | ok w1 =>
            rw [hu1] at hp
            dsimp only at hp
            cases hu2 : unescapeGo .encUserPassword
                (((a.take i).dropWhile (· ≠ ':')).tail) with
            | error e =>
              rw [hu2] at hp
              simp at hp
            | ok w2 =>
              rw [hu2] at hp
              simp only [Except.ok.injEq] at hp
              rw [hp]

theorem parseAfterQuery_host {sch rest rq : List Char} {fq : Bool} {u : URL}
    (hp : parseAfterQuery sch rest rq fq = .ok u) :
    (rawAuthorityAfterQuery sch rest = none → u.host = []) ∧
    ∀ a, rawAuthorityAfterQuery sch rest = some a →
      parseAuthority a = .ok u.host := by
  unfold parseAfterQuery at hp
  unfold rawAuthorityAfterQuery
  by_cases h1 : (!(['/'].isPrefixOf rest) && !sch.isEmpty) = true
  · rw [if_pos h1] at hp ⊢
    simp only [Except.ok.injEq] at hp
    exact ⟨fun _ => by rw [← hp], fun a hc => absurd hc (by simp)⟩
  · rw [if_neg h1] at hp ⊢
    by_cases h2 : (!(['/'].isPrefixOf rest) &&
        (rest.takeWhile notSlash).contains ':') = true
    · rw [if_pos h2] at hp
      simp at hp
    · rw [if_neg h2] at hp ⊢
      by_cases h3 : ((!sch.isEmpty || !(['/', '/', '/'].isPrefixOf rest)) &&
          ['/', '/'].isPrefixOf rest) = true
      · rw [if_pos h3] at hp ⊢
        dsimp only at hp
        cases hpa : parseAuthority ((rest.drop 2).takeWhile notSlash) with
        | error e =>
          rw [hpa] at hp
          simp at hp
        | ok host =>
          rw [hpa] at hp
          cases hup : unescapeGo .encPath ((rest.drop 2).dropWhile notSlash) with
          | error e =>
            rw [hup] at hp
            simp at hp
          | ok p =>
            rw [hup] at hp
            simp only [Except.ok.injEq] at hp
            refine ⟨fun hc => absurd hc (by simp), fun a ha => ?_⟩
            simp only [Option.some.injEq] at ha
            rw [← ha, ← hp]
            exact hpa
      · rw [if_neg h3] at hp ⊢
        cases hup : unescapeGo .encPath rest with
        | error e =>
          rw [hup] at hp
          simp at hp
        | ok p =>
          rw [hup] at hp
          simp only [Except.ok.injEq] at hp
          exact ⟨fun _ => by rw [← hp], fun a hc => absurd hc (by simp)⟩

theorem parseAfterScheme_host {sch rest0 : List Char} {u : URL}
    (hp : parseAfterScheme sch rest0 = .ok u) :
    (rawAuthorityAfterScheme sch rest0 = none → u.host = []) ∧
    ∀ a, rawAuthorityAfterScheme sch rest0 = some a →
      parseAuthority a = .ok u.host := by
  unfold parseAfterScheme at hp
  unfold rawAuthorityAfterScheme
  by_cases hfc : (hasSuffix rest0 ['?'] &&
      !(trimSuffix rest0 ['?']).contains '?') = true
  · rw [if_pos hfc] at hp ⊢
    exact parseAfterQuery_host hp
  · rw [if_neg hfc] at hp ⊢
    exact parseAfterQuery_host hp

theorem parseGo_host {v : List Char} {u : URL} (hp : parseGo v = .ok u) :
    (rawAuthorityOfCore v = none → u.host = []) ∧
    ∀ a, rawAuthorityOfCore v = some a → parseAuthority a = .ok u.host := by
  unfold parseGo at hp
  unfold rawAuthorityOfCore
  by_cases hctl : containsCTLByte v = true
  · rw [if_pos hctl] at hp
    simp at hp
  · rw [if_neg hctl] at hp ⊢
    by_cases hstar : v = ['*']
    · rw [if_pos hstar] at hp ⊢
      simp only [Except.ok.injEq] at hp
      exact ⟨fun _ => by rw [← hp], fun a hc => absurd hc (by simp)⟩
    · rw [if_neg hstar] at hp ⊢
      cases hg : getScheme v with
      | error e =>
        rw [hg] at hp
        simp at hp
      | ok sr =>
        rw [hg] at hp
        exact parseAfterScheme_host hp

theorem urlParse_host {x : List Char} {u : URL} (hp : urlParse x = .ok u) :
    ∃ url, parseGo (splitCut x '#').1 = .ok url ∧ url.host = u.host := by
  unfold urlParse at hp
  dsimp only at hp
  cases hg : parseGo (splitCut x '#').1 with
  | error e =>
    rw [hg] at hp
    simp at hp
  | ok url =>
    rw [hg] at hp
    dsimp only at hp
    split at hp
    · exact ⟨url, rfl, by rw [Except.ok.inj hp]⟩
    · cases hf : unescapeGo .encFragment (splitCut x '#').2 with
      | error e =>
        rw [hf] at hp
        simp at hp
      | ok f =>
        rw [hf] at hp
        simp only [Except.ok.injEq] at hp
        exact ⟨url, rfl, by rw [← hp]⟩

theorem explicitPort_ne_nil {raw p : List Char}
    (h : explicitPortOf raw = some p) : p ≠ [] := by
  unfold explicitPortOf at h
  split_ifs at h with hbr
  · cases hli : lastIndexOf? raw ']' with
    | none =>
      rw [hli] at h
      simp at h
    | some i =>
      rw [hli] at h
      dsimp only at h
      split at h
      · split at h
        · rename_i ds heq hcond
          simp only [Option.some.injEq] at h
          subst h
          simp only [Bool.and_eq_true, Bool.not_eq_true'] at hcond
          intro he
          rw [he] at hcond
          simp at hcond
        · simp at h
      · simp at h
  · cases hli : lastIndexOf? raw ':' with
    | none =>
      rw [hli] at h
      simp at h
    | some i =>
      rw [hli] at h
      dsimp only at h
      split at h
      · rename_i hcond
        simp only [Option.some.injEq] at h
        subst h
        simp only [Bool.and_eq_true, Bool.not_eq_true'] at hcond
        intro he
        rw [he] at hcond
        simp at hcond
      · simp at h

end GoURL

open GoURL Curl

/-- C2: for every successfully resolved input, the request target port
is exactly the port the spec assigns: the explicit (nonempty) port
digits written in the authority component of the URL when there are
any, and the fixed default `"80"` otherwise — with no reference to the
scheme. -/
theorem c2_port_resolution (s : List Char) (t : RequestTarget)
    (h : resolveTarget s = .ok t) : t.port = portSpec s := by
  unfold resolveTarget at h
  cases hup : urlParse s with
  | error e =>
    rw [hup] at h
    simp at h
  | ok u =>
    rw [hup] at h
    dsimp only at h
    simp only [Except.ok.injEq] at h
    obtain ⟨url, hpg, hhost⟩ := urlParse_host hup
    obtain ⟨hnone, hsome⟩ := parseGo_host hpg
    unfold portSpec authorityHostOf
    cases hra : rawAuthorityOfCore (splitCut s '#').1 with
    | none =>
      have hh : u.host = [] := by
        rw [← hhost]
        exact hnone hra
      rw [← h]
      dsimp only
      have hpo : portOf u = [] := by
        unfold portOf
        rw [hh]
        rfl
      rw [hpo]
      rfl
    | some a =>
      have hpa : parseAuthority a = .ok url.host := hsome a hra
      have hport := parseHost_port (parseAuthority_host hpa)
      rw [← h]
      dsimp only
      have hpo : portOf u = (explicitPortOf (afterLastAt a)).getD [] := by
        unfold portOf
        rw [← hhost]
        exact hport
      rw [hpo]
      simp only [Option.map_some']
      cases hep : explicitPortOf (afterLastAt a) with
      | none => rfl
      | some p =>
        have hpne : p ≠ [] := explicitPort_ne_nil hep
        dsimp only [Option.getD]
        rw [if_neg hpne]

/-- Witness for C2 with an explicit port (passthrough) and with an
omitted port (default). -/
theorem c2_port_resolution_witness :
    (RequestTarget.port ⟨"example.com".data, "8080".data, "/x".data⟩ =
      portSpec "http://example.com:8080/x".data) ∧
    (RequestTarget.port ⟨"example.com".data, "80".data, "/x".data⟩ =
      portSpec "https://example.com/x".data) :=
  ⟨c2_port_resolution "http://example.com:8080/x".data
      ⟨"example.com".data, "8080".data, "/x".data⟩ rfl,
   c2_port_resolution "https://example.com/x".data
      ⟨"example.com".data, "80".data, "/x".data⟩ rfl⟩
